import Mathlib

/-!
# Verification of the pitchsampler plugin core (src/Main.cpp)

Shallow embedding of the core of `src/Main.cpp`:

* `CircularAudioBuffer` (ring buffer `write` / `copyTo`),
* the trim-region edit logic of the editor's `sliderValueChanged`,
* the preview branch of `processBlock`,
* `detectPitch` (chunking / histogram / argmax driver, and the YIN
  `PitchDetector::detectPitch` itself),
* `BufferedSamplerVoice` (`startNote` / `stopNote` / `renderNextBlock`).

Samples are modelled as `ℚ` where only copying, comparison and elementary
arithmetic occur (C++ `float` operations on such values are exact up to
rounding, which none of the proved statements depend on), and as `ℝ` where
transcendental functions occur (`std::pow` in `startNote`, the tail-off
geometry in `renderNextBlock`).  C++ `int` is modelled as `ℤ` (no overflow is
approached by any claim), `%` on possibly-negative ints together with the
source's `if (readPos < 0) readPos += size` correction is modelled by
`Int.emod`, and C-style truncating division by `Int.tdiv`.
`juce::roundToInt` rounds to the nearest integer (ties to even); it is
modelled by `⌊x + 1/2⌋`, which agrees with it except at exact halves, which
no statement below exercises.
-/

/-! ## CircularAudioBuffer (src/Main.cpp lines 127-185) -/

/-- A multi-channel audio block, as handed to `write` (juce `AudioBuffer`):
a channel count, a sample count, and the sample data
(`sample c i` = `getSample(c, i)`). -/
structure Block where
  numChannels : Nat
  numSamples : Nat
  sample : Nat → Nat → ℚ

/-- The channel-`c` samples of a block, in index order. -/
def Block.chanList (b : Block) (c : Nat) : List ℚ :=
  (List.range b.numSamples).map (b.sample c)

/-- State of `CircularAudioBuffer`: the backing `juce::AudioBuffer`
(modelled as a total function; only indices `< size` are ever read or
written), the write cursor and the capacity. -/
structure CircularAudioBuffer where
  numChannels : Nat
  size : Nat
  data : Nat → Nat → ℚ
  writePos : Nat

/-- The `if (++pos >= size) pos = 0;` cursor step used by both the write
and the read loop of the source. -/
def ringStep (size pos : Nat) : Nat :=
  if pos + 1 ≥ size then 0 else pos + 1

/-- The inner per-channel loop of `CircularAudioBuffer::write`: store each
sample of the list at the cursor, stepping the cursor circularly. -/
def writeChanLoop (size : Nat) : (Nat → ℚ) → Nat → List ℚ → (Nat → ℚ)
  | d, _, [] => d
  | d, pos, x :: xs => writeChanLoop size (Function.update d pos x) (ringStep size pos) xs

/-- `CircularAudioBuffer::write` (lines 137-156): per channel
`c < min(source channels, buffer channels)`, run the write loop from the
shared write cursor; then advance the cursor by the block length mod size. -/
def CircularAudioBuffer.write (buf : CircularAudioBuffer) (b : Block) :
    CircularAudioBuffer :=
  { buf with
    data := fun c =>
      if c < min b.numChannels buf.numChannels then
        writeChanLoop buf.size (buf.data c) buf.writePos (b.chanList c)
      else buf.data c
    writePos := (buf.writePos + b.numSamples) % buf.size }

/-- Writing a whole sequence of blocks, oldest first. -/
def CircularAudioBuffer.writeAll (buf : CircularAudioBuffer) (bs : List Block) :
    CircularAudioBuffer :=
  bs.foldl CircularAudioBuffer.write buf

/-- The inner per-channel loop of `CircularAudioBuffer::copyTo`: copy `n`
samples from the ring (starting at `readPos`, stepping circularly) into
destination indices `i, i+1, …`. -/
def readChanLoop (size : Nat) (src : Nat → ℚ) :
    (Nat → ℚ) → Nat → Nat → Nat → (Nat → ℚ)
  | dest, _, _, 0 => dest
  | dest, i, readPos, n + 1 =>
      readChanLoop size src (Function.update dest i (src readPos)) (i + 1)
        (ringStep size readPos) n

/-- The initial read position of `CircularAudioBuffer::copyTo`:
`(writePos - size + startSample) % size`, with the C++ truncating `%`
followed by `if (readPos < 0) readPos += size`, which together compute the
Euclidean remainder. -/
def copyToReadPos (size writePos startSample : Nat) : Nat :=
  (((writePos : Int) - (size : Int) + (startSample : Int)).emod (size : Int)).toNat

/-- `CircularAudioBuffer::copyTo` (lines 158-176): for each channel
`c < min(dest channels, buffer channels)`, copy
`min(dest length, endSample - startSample)` samples starting at the wrapped
read position into the destination.  (`endSample - startSample` is a C++
`int`; a negative value makes the loop run zero times, which truncated `Nat`
subtraction models.) -/
def CircularAudioBuffer.copyTo (buf : CircularAudioBuffer)
    (destCh destLen : Nat) (dest : Nat → Nat → ℚ) (startSample endSample : Nat) :
    Nat → Nat → ℚ :=
  fun c =>
    if c < min destCh buf.numChannels then
      readChanLoop buf.size (buf.data c) (dest c) 0
        (copyToReadPos buf.size buf.writePos startSample)
        (min destLen (endSample - startSample))
    else dest c

/-- The channel-`c` stream of everything ever written, oldest first. -/
def streamOf (bs : List Block) (c : Nat) : List ℚ :=
  (bs.map (Block.chanList · c)).flatten

/-! ## enterTrimMode (src/Main.cpp lines 580-600) -/

/-- `juce::roundToInt`, modelled as round-half-up (see the header comment). -/
def juceRoundToInt (x : ℚ) : ℤ :=
  ⌊x + 1 / 2⌋

/-- The result of `BufferedRecorderSamplerProcessor::enterTrimMode`
(lines 580-600) that the claims are about, as a function of the circular
buffer, the configured duration and the host sample rate:
`totalSamples = roundToInt(bufferDuration * sampleRate)`, the trimmed
buffer is cleared, resized (zero-filled) and then filled by
`circularBuffer.copyTo(trimmedBuffer, 0, totalSamples)`, the trim
positions are reset to `0`/`1` and the histogram is cleared. -/
structure TrimEntry where
  trimmedLen : Nat
  trimmed : Nat → Nat → ℚ
  startPosition : ℚ
  endPosition : ℚ
  noteHistogram : ℤ → ℕ

def enterTrimMode (buf : CircularAudioBuffer) (bufferDuration sampleRate : ℚ) :
    TrimEntry :=
  let totalSamples : Nat := (juceRoundToInt (bufferDuration * sampleRate)).toNat
  { trimmedLen := totalSamples
    trimmed := buf.copyTo 2 totalSamples (fun _ _ => 0) 0 totalSamples
    startPosition := 0
    endPosition := 1
    noteHistogram := fun _ => 0 }

/-! ## Trim-region edits (src/Main.cpp lines 287-290 and 869-895) -/

/-- The trim region: `startPosition` / `endPosition` of the processor. -/
structure TrimRegion where
  start : ℚ
  stop : ℚ

/-- The net state effect of the editor's `sliderValueChanged` for the start
slider (lines 871-881): `setStartPosition(v)`, then if
`startPosition >= endPosition`, `setStartPosition(endPosition - 0.01)`.
(The nested `startSlider.setValue` re-entry leaves the state unchanged:
`endPosition - 0.01 >= endPosition` is false.) -/
def setTrimStart (r : TrimRegion) (v : ℚ) : TrimRegion :=
  if v ≥ r.stop then { start := r.stop - 1 / 100, stop := r.stop }
  else { start := v, stop := r.stop }

/-- The net state effect of `sliderValueChanged` for the end slider
(lines 882-892): `setEndPosition(v)`, then if
`endPosition <= startPosition`, `setEndPosition(startPosition + 0.01)`. -/
def setTrimEnd (r : TrimRegion) (v : ℚ) : TrimRegion :=
  if v ≤ r.start then { start := r.start, stop := r.start + 1 / 100 }
  else { start := r.start, stop := v }

/-- One trim edit: either a start-slider or an end-slider move. -/
def applyTrimEdit (r : TrimRegion) (e : ℚ ⊕ ℚ) : TrimRegion :=
  match e with
  | Sum.inl v => setTrimStart r v
  | Sum.inr v => setTrimEnd r v

/-- The trim region reached from the initial `(0, 1)` state
(`startPosition = 0.0f`, `endPosition = 1.0f`) by a sequence of edits. -/
def trimRegionAfter (es : List (ℚ ⊕ ℚ)) : TrimRegion :=
  es.foldl applyTrimEdit { start := 0, stop := 1 }

/-! ## Preview mixing in processBlock (src/Main.cpp lines 502-543) -/

/-- The preview branch of `processBlock` (`state == Trimming &&
isPreviewActive`, lines 505-537), as one processing tick:
`samplesToCopy = min(numSamples, trimmedBuffer.getNumSamples() -
previewPosition)`; if positive, a cleared scratch buffer receives
`samplesToCopy` samples of every channel of the trimmed buffer starting at
`previewPosition`, the cursor advances by `samplesToCopy` (resetting to `0`
once it reaches the trimmed buffer's end) and the scratch buffer is added
onto the live block (`addFrom`).  Returns the output block and the new
cursor.  (`trimLen - pos` is a C++ `int`; a non-positive value skips the
branch, which truncated `Nat` subtraction models.) -/
def previewTick (trimLen : Nat) (trimmed : Nat → Nat → ℚ)
    (input : Nat → Nat → ℚ) (numSamples pos : Nat) :
    (Nat → Nat → ℚ) × Nat :=
  let samplesToCopy := min numSamples (trimLen - pos)
  if samplesToCopy > 0 then
    let previewBuffer : Nat → Nat → ℚ := fun c i =>
      if i < samplesToCopy then trimmed c (pos + i) else 0
    let pos' := if pos + samplesToCopy ≥ trimLen then 0 else pos + samplesToCopy
    (fun c i => if i < samplesToCopy then input c i + previewBuffer c i
                else input c i,
     pos')
  else (input, pos)

/-- The processing tick C4 describes, written from the claim's words (for
comparison with `previewTick` only): copy clamped to the remaining length
of the selected `[start, end)` window, wrap the cursor back to the window's
start offset when the window is exhausted, mix additively. -/
def previewTickClaimed (trimmed : Nat → Nat → ℚ)
    (startSample endSample : Nat) (input : Nat → Nat → ℚ)
    (numSamples pos : Nat) : (Nat → Nat → ℚ) × Nat :=
  let samplesToCopy := min numSamples (endSample - pos)
  if samplesToCopy > 0 then
    (fun c i => if i < samplesToCopy then input c i + trimmed c (pos + i)
                else input c i,
     if pos + samplesToCopy ≥ endSample then startSample
     else pos + samplesToCopy)
  else (input, pos)

/-! ## detectPitch driver (src/Main.cpp lines 663-717) -/

/-- The processor state that `detectPitch` reads and writes: the trimmed
buffer (per-channel data indexed by a C++ `int`), the normalized trim
positions, the note histogram (`std::map<int,int>`, modelled as its count
function: absent keys are `0`) and `mostCommonNote`. -/
structure TrimState where
  trimmedLen : Nat
  trimmed : Nat → ℤ → ℚ
  startPosition : ℚ
  endPosition : ℚ
  noteHistogram : ℤ → ℕ
  mostCommonNote : ℤ

/-- `startSample = roundToInt(startPosition * totalSamples)` (line 670). -/
def TrimState.startSample (st : TrimState) : ℤ :=
  juceRoundToInt (st.startPosition * st.trimmedLen)

/-- `endSample = roundToInt(endPosition * totalSamples)` (line 671). -/
def TrimState.endSample (st : TrimState) : ℤ :=
  juceRoundToInt (st.endPosition * st.trimmedLen)

/-- `lengthInSamples = endSample - startSample` (line 672). -/
def TrimState.lengthInSamples (st : TrimState) : ℤ :=
  st.endSample - st.startSample

/-- `numChunks = lengthInSamples / chunkSize` (line 676): C++ `int`
division truncates toward zero; a non-positive count runs the chunk loop
zero times, hence `toNat`. -/
def TrimState.numChunks (st : TrimState) : ℕ :=
  (Int.tdiv st.lengthInSamples 2048).toNat

/-- The `chunk`-th 2048-sample frame handed to the pitch detector
(lines 682-689): channel 0 of the trimmed buffer, samples
`startSample + chunk*2048 + i`. -/
def chunkFrame (st : TrimState) (chunk : ℕ) : ℕ → ℚ :=
  fun i => st.trimmed 0 (st.startSample + chunk * 2048 + i)

/-- The histogram update for one chunk (lines 695-704): if the note lies in
`[0, 128)`, bump its count (`noteHistogram[midiNote] = 1` on first
insertion, `noteHistogram[midiNote]++` afterwards — with absent ≡ count 0,
both are `+ 1`); otherwise leave the map untouched. -/
def addNote (h : ℤ → ℕ) (note : ℤ) : ℤ → ℕ :=
  if 0 ≤ note ∧ note < 128 then Function.update h note (h note + 1) else h

/-- The chunk loop (lines 679-705), parametrized by the estimator
`est` = `midiNoteFromFrequency ∘ pitchDetector->detectPitch` (the
real-valued YIN estimate is analysed separately; this driver's claims do
not depend on its value). -/
def accumulateChunks (est : (ℕ → ℚ) → ℤ) (st : TrimState) : ℤ → ℕ :=
  (List.range st.numChunks).foldl
    (fun h chunk => addNote h (est (chunkFrame st chunk))) st.noteHistogram

/-- The argmax scan (lines 707-716): `maxCount = 0`; iterate the
`std::map` in ascending key order, replacing `(maxCount, mostCommonNote)`
on a strictly greater count.  The map's keys all lie in `[0, 128)` (the
guarded insertion above), and a key with count `0` is absent from the map
and could never pass the strict `entry.second > maxCount` test anyway, so
the scan is the fold over `0, …, 127`. -/
def scanHistogram (h : ℤ → ℕ) (m₀ : ℤ) : ℕ × ℤ :=
  (List.range 128).foldl
    (fun acc k => if h (k : ℤ) > acc.1 then (h (k : ℤ), (k : ℤ)) else acc)
    (0, m₀)

/-- `BufferedRecorderSamplerProcessor::detectPitch` (lines 663-717):
early-return on an empty trimmed buffer, otherwise accumulate the chunk
notes into the histogram and rescan for the most common note. -/
def detectPitchDriver (est : (ℕ → ℚ) → ℤ) (st : TrimState) : TrimState :=
  if st.trimmedLen = 0 then st
  else
    let h := accumulateChunks est st
    { st with
      noteHistogram := h
      mostCommonNote := (scanHistogram h st.mostCommonNote).2 }

/-- `mostCommonNote = 60; // Default to C4` (line 321). -/
def initialMostCommonNote : ℤ := 60

/-! ## PitchDetector (src/Main.cpp lines 30-121) -/

/-- Step 1 (lines 43-51): the raw difference function,
`yinBuffer[tau] = Σ_{j < yinSize} (buffer[j] - buffer[j+tau])²` where
`yinSize = yinBuffer.size() = bufferSize / 2`.  The frame is modelled as a
total function; C6 settles which of these reads are in bounds. -/
def yinDiff (buf : ℕ → ℚ) (yinSize tau : ℕ) : ℚ :=
  ∑ j ∈ Finset.range yinSize, (buf j - buf (j + tau)) ^ 2

/-- The running `sum` of step 2 after the `tau`-th iteration: the sum of
the raw difference values at lags `1, …, tau` (each slot is added to `sum`
before it is overwritten). -/
def yinCumSum (buf : ℕ → ℚ) (yinSize tau : ℕ) : ℚ :=
  ∑ k ∈ Finset.Icc 1 tau, yinDiff buf yinSize k

/-- Step 2 (lines 54-61): the cumulative-mean-normalized difference
function: slot 0 forced to `1`, slot `tau ≥ 1` becomes
`yinBuffer[tau] * tau / sum`.  (On an all-zero frame the C++ code divides
`0.0f` by `0.0f`, producing NaN whose comparisons are all false; the `ℚ`
model's division-by-zero convention gives `0`, which fails the strict
local-minimum test below just the same — both yield the same scan.) -/
def yinCmnd (buf : ℕ → ℚ) (yinSize tau : ℕ) : ℚ :=
  if tau = 0 then 1
  else yinDiff buf yinSize tau * tau / yinCumSum buf yinSize tau

/-- Step 3 (lines 63-86): scan `tau = 2, 3, …` while `tau < yinSize` for
the first strict local minimum below the `0.1` threshold; on a hit, return
`sampleRate / (tau + p)` with the parabolic-interpolation offset
`p = 0.5 (α - γ) / (α - 2β + γ)`; otherwise return `0` (no pitch). -/
def yinScan (cm : ℕ → ℚ) (sampleRate : ℚ) (yinSize tau : ℕ) : ℚ :=
  if h : tau < yinSize then
    if cm tau < 1 / 10 ∧ cm tau < cm (tau - 1) ∧ cm tau < cm (tau + 1) then
      sampleRate /
        (tau + 1 / 2 * (cm (tau - 1) - cm (tau + 1)) /
          (cm (tau - 1) - 2 * cm tau + cm (tau + 1)))
    else yinScan cm sampleRate yinSize (tau + 1)
  else 0
termination_by yinSize - tau

/-- `PitchDetector::detectPitch` (lines 39-87).  The `size` argument of
the C++ function is unused by its body — every loop bound is
`yinBuffer.size()`. -/
def PitchDetector.detectPitch (sampleRate : ℚ) (yinSize : ℕ) (buf : ℕ → ℚ) : ℚ :=
  yinScan (yinCmnd buf yinSize) sampleRate yinSize 2

/-- The set of frame indices read by the difference-function loop of
step 1 (`buffer[j]` and `buffer[j + tau]` for `tau < yinSize`,
`j < yinSize`), for claim C6. -/
def diffLoopReads (yinSize : ℕ) (idx : ℕ) : Prop :=
  ∃ tau < yinSize, ∃ j < yinSize, idx = j ∨ idx = j + tau

instance (yinSize idx : ℕ) : Decidable (diffLoopReads yinSize idx) := by
  unfold diffLoopReads; infer_instance

/-! ## BufferedSamplerVoice (src/Main.cpp lines 191-214 and 1015-1144) -/

/-- The sample asset a voice reads (`BufferedSamplerSound`): length,
channel count, and left/right read pointers (total functions over `ℤ`; the
render loop only reads indices the claims keep in `[0, len)`). -/
structure SampleBuf where
  len : ℕ
  numChannels : ℕ
  dataL : ℤ → ℝ
  dataR : ℤ → ℝ

/-- `BufferedSamplerVoice` state.  `sourceSamplePosition` is declared
`int` in the source, so it is an integer here; `active` models whether
`clearCurrentNote()` has been called (false once cleared). -/
structure Voice where
  level : ℝ
  tailOff : ℝ
  rootNote : ℤ
  sourceSamplePosition : ℤ
  rate : ℝ
  active : Bool

/-- `BufferedSamplerVoice::startNote` (lines 1020-1048), on a
`BufferedSamplerSound` with root note `root`:
`rate = pow(2.0, (midiNoteNumber - rootNote) / 12.0)`, position reset to
`0`, `level = velocity * 0.15`, `tailOff = 0.0`; the voice becomes active
(the synthesiser marks it playing before calling `startNote`). -/
noncomputable def Voice.startNote (v : Voice) (midiNoteNumber : ℤ) (velocity : ℝ)
    (root : ℤ) : Voice :=
  { v with
    rootNote := root
    rate := (2 : ℝ) ^ ((((midiNoteNumber : ℝ) - (root : ℝ)) / 12) : ℝ)
    sourceSamplePosition := 0
    level := velocity * 0.15
    tailOff := 0 }

/-- `BufferedSamplerVoice::stopNote` (lines 1050-1064): with tail-off,
start a new tail-off at `1.0` unless one is running; without, clear the
note immediately and zero the level. -/
noncomputable def Voice.stopNote (v : Voice) (allowTailOff : Bool) : Voice :=
  if allowTailOff then
    if v.tailOff = 0 then { v with tailOff := 1 } else v
  else { v with active := false, level := 0 }

/-- C++ `int += double`: the real sum truncated toward zero. -/
noncomputable def truncAdd (p : ℤ) (r : ℝ) : ℤ :=
  if 0 ≤ (p : ℝ) + r then ⌊(p : ℝ) + r⌋ else ⌈(p : ℝ) + r⌉

/-- One iteration of the `while (--numSamples >= 0)` loop of
`renderNextBlock` (lines 1094-1143), returning the updated voice and the
`(left, right)` contribution added to the output for this sample (`none`
when the loop `break`s without writing).  `pos` is
`static_cast<int>(sourceSamplePosition)` — an identity, the field being an
`int`; consequently `alpha = sourceSamplePosition - pos = 0` and the
interpolation always lands on `inL[pos]`/`inR[pos]`. -/
noncomputable def Voice.renderOne (v : Voice) (sb : SampleBuf) : Voice × Option (ℝ × ℝ) :=
  let pos := v.sourceSamplePosition
  if pos ≥ (sb.len : ℤ) then ({ v with active := false }, none)
  else
    let alpha : ℝ := (v.sourceSamplePosition : ℝ) - (pos : ℝ)
    let invAlpha : ℝ := 1 - alpha
    let nextPos : ℤ := if pos + 1 < (sb.len : ℤ) then pos + 1 else pos
    let l : ℝ := sb.dataL pos * invAlpha + sb.dataL nextPos * alpha
    let r : ℝ :=
      if sb.numChannels > 1 then sb.dataR pos * invAlpha + sb.dataR nextPos * alpha
      else l
    if v.tailOff > 0 then
      let currentLevel := v.level * v.tailOff
      let tailOff' := v.tailOff * 0.99
      if tailOff' ≤ 0.005 then ({ v with tailOff := tailOff', active := false }, none)
      else
        ({ v with tailOff := tailOff',
                  sourceSamplePosition := truncAdd pos v.rate },
         some (l * currentLevel, r * currentLevel))
    else
      ({ v with sourceSamplePosition := truncAdd pos v.rate },
       some (l * v.level, r * v.level))

/-- The loop of `renderNextBlock` over `numSamples` samples: stops early
(`break`) when an iteration clears the note; collects the emitted output
contributions in order. -/
noncomputable def Voice.renderLoop (v : Voice) (sb : SampleBuf) : ℕ → Voice × List (ℝ × ℝ)
  | 0 => (v, [])
  | n + 1 =>
      match v.renderOne sb with
      | (v', none) => (v', [])
      | (v', some out) =>
          let rest := v'.renderLoop sb n
          (rest.1, out :: rest.2)

/-- `BufferedSamplerVoice::renderNextBlock` (lines 1076-1144): the two
early returns (`sampleBuffer == nullptr` is out of the model — a bound
voice always has one — and `bufferSize <= 0`), then the sample loop. -/
noncomputable def Voice.renderNextBlock (v : Voice) (sb : SampleBuf) (numSamples : ℕ) :
    Voice × List (ℝ × ℝ) :=
  if sb.len = 0 then (v, [])
  else v.renderLoop sb numSamples


/-- The argmax scan of `detectPitch` as a fold over an arbitrary key list
(instantiated at `0, …, 127` by `scanHistogram`). -/
def scanFold (h : ℤ → ℕ) (l : List ℕ) (acc : ℕ × ℤ) : ℕ × ℤ :=
  l.foldl (fun acc k => if h (k : ℤ) > acc.1 then (h (k : ℤ), (k : ℤ)) else acc) acc

/-- Estimator stub for the C5 witness: every chunk reads as MIDI note 64. -/
def c5Est : (ℕ → ℚ) → ℤ := fun _ => 64

/-- Processor state for the C5 witness: a fresh 2048-sample trim entry with
the full region selected. -/
def c5State : TrimState :=
  { trimmedLen := 2048, trimmed := fun _ _ => 0, startPosition := 0
    endPosition := 1, noteHistogram := fun _ => 0, mostCommonNote := 60 }


/-- Sample asset for the C9 witness: 4 silent samples, stereo. -/
noncomputable def c9Buf : SampleBuf :=
  { len := 4, numChannels := 2, dataL := fun _ => 0, dataR := fun _ => 0 }

/-- Voice for the C9 witness: playing at the root (rate 1), not releasing. -/
noncomputable def c9Voice : Voice :=
  { level := 0.15, tailOff := 0, rootNote := 60, sourceSamplePosition := 0
    rate := 1, active := true }

/-! ## Generic helper lemmas -/

lemma ringStep_eq_mod {size : ℕ} (pos : ℕ) (h : pos < size) :
    ringStep size pos = (pos + 1) % size := by
  unfold ringStep
  rcases Nat.lt_or_ge (pos + 1) size with h1 | h1
  · rw [if_neg (by omega), Nat.mod_eq_of_lt h1]
  · have h2 : pos + 1 = size := by omega
    rw [if_pos (by omega), h2, Nat.mod_self]

lemma emod_toNat_eq (w st size : ℕ) :
    (((w : ℤ) - (size : ℤ) + st) % (size : ℤ)).toNat = (w + st) % size := by
  have h1 : ((w : ℤ) - (size : ℤ) + st) = ((w + st : ℕ) : ℤ) + (-1) * size := by
    push_cast; ring
  rw [h1, Int.add_mul_emod_self, ← Int.natCast_mod, Int.toNat_natCast]

lemma copyToReadPos_eq (size w st : ℕ) :
    copyToReadPos size w st = (w + st) % size :=
  emod_toNat_eq w st size

/-! ## C3: trim-region invariant -/

lemma applyTrimEdit_invariant (r : TrimRegion) (e : ℚ ⊕ ℚ) :
    (applyTrimEdit r e).start < (applyTrimEdit r e).stop := by
  rcases e with v | v <;> simp only [applyTrimEdit, setTrimStart, setTrimEnd] <;>
    split <;> simp_all

lemma foldl_trim_invariant (es : List (ℚ ⊕ ℚ)) :
    ∀ r : TrimRegion, r.start < r.stop →
      (es.foldl applyTrimEdit r).start < (es.foldl applyTrimEdit r).stop := by
  induction es with
  | nil => intro r h; exact h
  | cons e es ih => intro r _; exact ih _ (applyTrimEdit_invariant r e)

/-- C3: after any sequence of start/end slider edits with arbitrary values,
starting from the initial region `(0, 1)`, the invariant
`startPosition < endPosition` holds — the violated bound having been pushed
away from the other one by the 0.01 epsilon of `sliderValueChanged`. -/
theorem c3_trim_edits_keep_start_lt_end (es : List (ℚ ⊕ ℚ)) :
    (trimRegionAfter es).start < (trimRegionAfter es).stop :=
  foldl_trim_invariant es { start := 0, stop := 1 } (by norm_num)

/-! ## C7: silence yields no pitch -/

lemma yinDiff_zero (yinSize tau : ℕ) : yinDiff (fun _ => 0) yinSize tau = 0 := by
  unfold yinDiff; simp

lemma yinCmnd_zero (yinSize tau : ℕ) (h : 1 ≤ tau) :
    yinCmnd (fun _ => 0) yinSize tau = 0 := by
  unfold yinCmnd
  rw [if_neg (by omega), yinDiff_zero]
  simp

lemma yinScan_no_local_min (cm : ℕ → ℚ) (sr : ℚ) (yinSize : ℕ)
    (hcm : ∀ t, 1 ≤ t → cm t = 0) :
    ∀ n tau, yinSize ≤ tau + n → 2 ≤ tau → yinScan cm sr yinSize tau = 0 := by
  intro n
  induction n with
  | zero =>
    intro tau h1 _
    rw [yinScan, dif_neg (by omega)]
  | succ n ih =>
    intro tau h1 h2
    rw [yinScan]
    split
    · rw [if_neg]
      · exact ih (tau + 1) (by omega) (by omega)
      · rw [hcm tau (by omega), hcm (tau - 1) (by omega)]
        simp
    · rfl

/-- C7: on an all-zero frame `PitchDetector::detectPitch` returns 0 (no
pitch): no lag qualifies as a strict local minimum of the normalized
difference function, so the scan runs off the end of `yinBuffer` and the
no-pitch result is returned.  (In the `float` source the all-zero frame
makes step 2 produce NaN via `0/0`, whose comparisons are all false; in the
exact model the values are `0`, which fail the strict-minimum comparisons —
the same scan outcome.) -/
theorem c7_silence_returns_no_pitch (sampleRate : ℚ) (yinSize : ℕ) :
    PitchDetector.detectPitch sampleRate yinSize (fun _ => 0) = 0 := by
  unfold PitchDetector.detectPitch
  exact yinScan_no_local_min _ sampleRate yinSize
    (fun t ht => yinCmnd_zero yinSize t ht) yinSize 2 (by omega) (by omega)

/-! ## C8: startNote playback rate -/

/-- C8: `startNote` computes `rate = 2^((midiNote − rootNote)/12)` — in
particular 1, 2 and 1/2 at the root, an octave above and an octave below —
resets the read position to 0, sets `level = velocity × 0.15` and clears
the tail-off. -/
theorem c8_start_note_rate (v : Voice) (midiNoteNumber root : ℤ) (velocity : ℝ) :
    (v.startNote midiNoteNumber velocity root).rate
        = (2 : ℝ) ^ ((((midiNoteNumber : ℝ) - (root : ℝ)) / 12) : ℝ) ∧
    (v.startNote root velocity root).rate = 1 ∧
    (v.startNote (root + 12) velocity root).rate = 2 ∧
    (v.startNote (root - 12) velocity root).rate = 1 / 2 ∧
    (v.startNote midiNoteNumber velocity root).sourceSamplePosition = 0 ∧
    (v.startNote midiNoteNumber velocity root).level = velocity * 0.15 ∧
    (v.startNote midiNoteNumber velocity root).tailOff = 0 := by
  refine ⟨rfl, ?_, ?_, ?_, rfl, rfl, rfl⟩
  · have h : ((((root : ℤ) : ℝ) - ((root : ℤ) : ℝ)) / 12 : ℝ) = 0 := by ring
    simp only [Voice.startNote]
    rw [h, Real.rpow_zero]
  · have h : ((((root + 12 : ℤ) : ℝ) - ((root : ℤ) : ℝ)) / 12 : ℝ) = 1 := by
      push_cast; ring
    simp only [Voice.startNote]
    rw [h, Real.rpow_one]
  · have h : ((((root - 12 : ℤ) : ℝ) - ((root : ℤ) : ℝ)) / 12 : ℝ) = ((-1 : ℤ) : ℝ) := by
      push_cast; ring
    simp only [Voice.startNote]
    rw [h, Real.rpow_intCast]
    norm_num

/-! ## C6: the difference-function loop reads past a 2048-sample chunk -/

/-- C6 (failing input): with the detector built from a 4096-sample host
block (`prepareToPlay` → `yinBuffer.size() = 4096 / 2 = 2048`) and handed a
2048-sample chunk by `BufferedRecorderSamplerProcessor::detectPitch`, the
step-1 loop reads frame index `j + tau = 2047 + 2047 = 4094`, which is not
below the chunk length 2048 — an out-of-bounds read. -/
theorem c6_difference_loop_reads_out_of_bounds :
    diffLoopReads (4096 / 2) 4094 ∧ ¬ (4094 < 2048) :=
  ⟨⟨2047, by norm_num, 2047, by norm_num, Or.inr (by norm_num)⟩, by norm_num⟩

/-! ## C4: the preview tick -/

/-- C4 counterexample: trimmed buffer of length 10 with sample values
`0,…,9`, selected window `[5, 8)`, preview cursor at 5, silent input block
of 4 samples.  The claimed tick copies `min(4, 8−5) = 3` samples and wraps
the cursor inside the window; the source tick copies `min(4, 10−5) = 4`
samples — its output at block index 3 is sample 8, outside the selected
window, and its new cursor is 9, past the window's end. -/
theorem c4_preview_counterexample :
    (previewTick 10 (fun _ i => (i : ℚ)) (fun _ _ => 0) 4 5).1 0 3 = 8 ∧
    (previewTickClaimed (fun _ i => (i : ℚ)) 5 8 (fun _ _ => 0) 4 5).1 0 3 = 0 ∧
    (previewTick 10 (fun _ i => (i : ℚ)) (fun _ _ => 0) 4 5).2 = 9 ∧
    (previewTickClaimed (fun _ i => (i : ℚ)) 5 8 (fun _ _ => 0) 4 5).2 = 5 := by
  refine ⟨?_, ?_, ?_, ?_⟩ <;> norm_num [previewTick, previewTickClaimed]

/-- C4 (amended): while preview is active, each processing tick copies up
to one block's worth of samples from the trimmed buffer starting at the
preview cursor, clamped to the remaining length of the *whole* trimmed
buffer (not of the selected window), advances the cursor by the amount
copied, wraps the cursor back to position 0 (the buffer's start, not the
window's start offset) when the whole buffer is exhausted, and adds the
copied samples onto the live input block rather than replacing it. -/
theorem c4_preview_tick_clamps_to_whole_buffer
    (trimLen : ℕ) (trimmed input : Nat → Nat → ℚ) (numSamples pos : ℕ)
    (h : 0 < min numSamples (trimLen - pos)) :
    previewTick trimLen trimmed input numSamples pos =
      (fun c i => if i < min numSamples (trimLen - pos)
                  then input c i + trimmed c (pos + i) else input c i,
       if pos + min numSamples (trimLen - pos) ≥ trimLen then 0
       else pos + min numSamples (trimLen - pos)) := by
  simp only [previewTick]
  rw [if_pos h]
  congr 1
  funext c i
  by_cases hi : i < min numSamples (trimLen - pos)
  · simp [hi]
  · simp [hi]

/-- Witness for C4's amended theorem at the counterexample's input. -/
theorem c4_preview_tick_witness :
    0 < min 4 (10 - 5) ∧
    previewTick 10 (fun _ i => (i : ℚ)) (fun _ _ => 0) 4 5 =
      (fun (c i : ℕ) => if i < min 4 (10 - 5)
                  then (fun (_ _ : ℕ) => (0 : ℚ)) c i + (fun (_ i : ℕ) => (i : ℚ)) c (5 + i)
                  else (fun (_ _ : ℕ) => (0 : ℚ)) c i,
       if 5 + min 4 (10 - 5) ≥ 10 then 0 else 5 + min 4 (10 - 5)) :=
  ⟨by norm_num,
   c4_preview_tick_clamps_to_whole_buffer 10 (fun _ i => (i : ℚ)) (fun _ _ => 0)
     4 5 (by norm_num)⟩

/-! ## C1: enterTrimMode copies the oldest retrievable window -/

/-- A concrete recording: one mono block of six samples `1,…,6` written
into a ring of capacity 4. -/
def c1Block : Block :=
  { numChannels := 1, numSamples := 6
    sample := fun _ i => ([1, 2, 3, 4, 5, 6] : List ℚ).getD i 0 }

def c1Buf : CircularAudioBuffer :=
  (CircularAudioBuffer.mk 1 4 (fun _ _ => 0) 0).writeAll [c1Block]

/-- Entering trim mode with `bufferDuration * sampleRate = 2`. -/
def c1Entry : TrimEntry := enterTrimMode c1Buf 2 1

/-- C1 (failing input): after writing `1,…,6` into a capacity-4 ring,
entering trim mode with a 2-sample window stores samples `3, 4` — the ring
content starting at the write cursor, i.e. the *oldest* retrievable
window — although the most recent two samples written are `5, 6`
(`enterTrimMode` passes `startSample = 0` to `copyTo`, whose offsets are
measured from `capacity` samples back, so only a window equal to the whole
capacity ends at "now").  The trim-region reset and histogram clear do
hold. -/
theorem c1_enter_trim_copies_oldest_window :
    c1Entry.trimmedLen = 2 ∧
    c1Entry.trimmed 0 0 = 3 ∧ c1Entry.trimmed 0 1 = 4 ∧
    streamOf [c1Block] 0 = [1, 2, 3, 4, 5, 6] ∧
    ¬ (c1Entry.trimmed 0 0 = 5 ∧ c1Entry.trimmed 0 1 = 6) ∧
    c1Entry.startPosition = 0 ∧ c1Entry.endPosition = 1 ∧
    ∀ k, c1Entry.noteHistogram k = 0 := by
  have h2 : (juceRoundToInt ((2 : ℚ) * 1)).toNat = 2 := by
    norm_num [juceRoundToInt]; decide
  refine ⟨?_, ?_, ?_, by decide, ?_, ?_, ?_, fun k => rfl⟩ <;>
    (simp only [c1Entry, enterTrimMode, h2]; try decide)

/-! ## C2: ring-buffer round trip -/

/-- Total number of samples (per channel) in a sequence of blocks. -/
def totalWritten (bs : List Block) : ℕ :=
  (bs.map Block.numSamples).sum

lemma chanList_length (b : Block) (c : ℕ) : (b.chanList c).length = b.numSamples := by
  simp [Block.chanList]

lemma streamOf_length (bs : List Block) (c : ℕ) :
    (streamOf bs c).length = totalWritten bs := by
  unfold streamOf totalWritten
  induction bs with
  | nil => simp
  | cons b bs ih => simp_all [chanList_length]

/-- Two numbers closer than `size` with equal residues are equal — the
modular fact behind "a sample survives until overwritten". -/
lemma mod_eq_mod_false {size a b : ℕ} (h : a % size = b % size)
    (hlt : b < a) (hbound : a < b + size) : False := by
  have h1 : Nat.ModEq size b a := h.symm
  have h2 : size ∣ a - b := (Nat.modEq_iff_dvd' (le_of_lt hlt)).mp h1
  have h3 : size ≤ a - b := Nat.le_of_dvd (by omega) h2
  omega

/-- A position not visited by the write loop keeps its old value. -/
lemma writeChanLoop_untouched {size : ℕ} :
    ∀ (xs : List ℚ) (d : ℕ → ℚ) (pos p : ℕ), pos < size →
      (∀ i < xs.length, (pos + i) % size ≠ p) →
      writeChanLoop size d pos xs p = d p := by
  intro xs
  induction xs with
  | nil => intro d pos p _ _; rfl
  | cons x xs ih =>
    intro d pos p hpos h
    have hsize : 0 < size := lt_of_le_of_lt (Nat.zero_le _) hpos
    have hp : p ≠ pos := by
      have h0 := h 0 (by simp)
      rw [Nat.add_zero, Nat.mod_eq_of_lt hpos] at h0
      exact Ne.symm h0
    simp only [writeChanLoop]
    rw [ringStep_eq_mod pos hpos,
      ih (Function.update d pos x) ((pos + 1) % size) p (Nat.mod_lt _ hsize) ?_]
    · exact Function.update_noteq hp x d
    · intro i hi
      rw [Nat.mod_add_mod]
      have harg : pos + 1 + i = pos + (i + 1) := by omega
      rw [harg]
      exact h (i + 1) (by simp; omega)

/-- The `j`-th sample written by the write loop lands at `(pos + j) % size`
and survives provided fewer than `size` samples follow it. -/
lemma writeChanLoop_get {size : ℕ} :
    ∀ (xs : List ℚ) (d : ℕ → ℚ) (pos j : ℕ), pos < size →
      ∀ (hj : j < xs.length), xs.length ≤ j + size →
      writeChanLoop size d pos xs ((pos + j) % size) = xs.get ⟨j, hj⟩ := by
  intro xs
  induction xs with
  | nil => intro d pos j _ hj _; exact absurd hj (by simp)
  | cons x xs ih =>
    intro d pos j hpos hj hlen
    have hsize : 0 < size := lt_of_le_of_lt (Nat.zero_le _) hpos
    cases j with
    | zero =>
      have hidx : (pos + 0) % size = pos := by
        rw [Nat.add_zero, Nat.mod_eq_of_lt hpos]
      rw [hidx]
      simp only [writeChanLoop]
      rw [ringStep_eq_mod pos hpos,
        writeChanLoop_untouched xs (Function.update d pos x) ((pos + 1) % size) pos
          (Nat.mod_lt _ hsize) ?_]
      · simp
      · intro i hi
        rw [Nat.mod_add_mod]
        have harg : pos + 1 + i = pos + (1 + i) := by omega
        rw [harg]
        apply (fun h => mod_eq_mod_false h (by omega) (by simp at hlen; omega)) ∘
          (fun heq => heq.trans (Nat.mod_eq_of_lt hpos).symm)
    | succ j =>
      simp only [writeChanLoop]
      rw [ringStep_eq_mod pos hpos]
      have hidx : (pos + (j + 1)) % size = ((pos + 1) % size + j) % size := by
        rw [Nat.mod_add_mod]
        congr 1
        omega
      rw [hidx,
        ih (Function.update d pos x) ((pos + 1) % size) j (Nat.mod_lt _ hsize)
          (by simpa using hj) (by simp at hlen ⊢; omega)]
      rfl

/-- Ring-buffer representation invariant: after the stream `s` has been
written, the cursor equals `s.length % size`, and every one of the
most recent `size` samples is stored at its stream index modulo `size`. -/
def RingInv (size : ℕ) (d : ℕ → ℚ) (pos : ℕ) (s : List ℚ) : Prop :=
  pos = s.length % size ∧
  ∀ k, ∀ hk : k < s.length, s.length ≤ k + size →
    d (k % size) = s.get ⟨k, hk⟩

lemma writeChanLoop_ringInv {size : ℕ} (hsize : 0 < size) (d : ℕ → ℚ)
    (pos : ℕ) (s b : List ℚ) (hinv : RingInv size d pos s) :
    RingInv size (writeChanLoop size d pos b) ((pos + b.length) % size) (s ++ b) := by
  obtain ⟨hpos, hdata⟩ := hinv
  have hposlt : pos < size := hpos ▸ Nat.mod_lt _ hsize
  constructor
  · rw [List.length_append, hpos, Nat.mod_add_mod]
  · intro k hk hklen
    rw [List.length_append] at hk hklen
    rcases Nat.lt_or_ge k s.length with hks | hks
    · rw [writeChanLoop_untouched b d pos (k % size) hposlt ?_]
      · rw [hdata k hks (by omega)]
        exact (List.get_append k hks).symm
      · intro i hi heq
        rw [hpos, Nat.mod_add_mod] at heq
        exact mod_eq_mod_false heq (by omega) (by omega)
    · obtain ⟨j, rfl⟩ : ∃ j, k = s.length + j := ⟨k - s.length, by omega⟩
      have hj : j < b.length := by omega
      have hidx : (s.length + j) % size = (pos + j) % size := by
        rw [hpos, Nat.mod_add_mod]
      rw [hidx, writeChanLoop_get b d pos j hposlt hj (by omega)]
      rw [List.get_append_right _ _ (by omega)]
      · simp
      · omega

lemma write_preserves_shape (buf : CircularAudioBuffer) (b : Block) :
    (buf.write b).size = buf.size ∧ (buf.write b).numChannels = buf.numChannels :=
  ⟨rfl, rfl⟩

lemma writeAll_ringInv :
    ∀ (bs : List Block) (buf : CircularAudioBuffer) (c : ℕ) (s : List ℚ),
      0 < buf.size → c < buf.numChannels →
      (∀ b ∈ bs, buf.numChannels ≤ b.numChannels) →
      RingInv buf.size (buf.data c) buf.writePos s →
      (buf.writeAll bs).size = buf.size ∧
      (buf.writeAll bs).numChannels = buf.numChannels ∧
      RingInv buf.size ((buf.writeAll bs).data c) (buf.writeAll bs).writePos
        (s ++ streamOf bs c) := by
  intro bs
  induction bs with
  | nil =>
    intro buf c s _ _ _ h4
    refine ⟨rfl, rfl, ?_⟩
    simpa [streamOf] using h4
  | cons b bs ih =>
    intro buf c s h1 h2 h3 h4
    have hb : buf.numChannels ≤ b.numChannels := h3 b (by simp)
    have hc : c < min b.numChannels buf.numChannels := lt_min (lt_of_lt_of_le h2 hb) h2
    have hstep : RingInv buf.size ((buf.write b).data c) (buf.write b).writePos
        (s ++ b.chanList c) := by
      have h5 := writeChanLoop_ringInv h1 (buf.data c) buf.writePos s (b.chanList c) h4
      rw [chanList_length] at h5
      have hdataeq : (buf.write b).data c
          = writeChanLoop buf.size (buf.data c) buf.writePos (b.chanList c) := by
        simp only [CircularAudioBuffer.write]
        rw [if_pos hc]
      have hwpeq : (buf.write b).writePos = (buf.writePos + b.numSamples) % buf.size := rfl
      rw [hdataeq, hwpeq]
      exact h5
    have h6 := ih (buf.write b) c (s ++ b.chanList c) h1 h2
      (fun b' hb' => h3 b' (by simp [hb'])) hstep
    have h7 : (buf.write b).writeAll bs = buf.writeAll (b :: bs) := rfl
    rw [h7] at h6
    refine ⟨h6.1, h6.2.1, ?_⟩
    have h8 : s ++ b.chanList c ++ streamOf bs c = s ++ streamOf (b :: bs) c := by
      rw [List.append_assoc]
      congr 1
    exact h8 ▸ h6.2.2

lemma readChanLoop_untouched {size : ℕ} (src : ℕ → ℚ) :
    ∀ (n : ℕ) (dest : ℕ → ℚ) (i rp p : ℕ), p < i →
      readChanLoop size src dest i rp n p = dest p := by
  intro n
  induction n with
  | zero => intro dest i rp p _; rfl
  | succ n ih =>
    intro dest i rp p hp
    simp only [readChanLoop]
    rw [ih (Function.update dest i (src rp)) (i + 1) (ringStep size rp) p (by omega)]
    exact Function.update_noteq (by omega) _ dest

lemma readChanLoop_get {size : ℕ} (src : ℕ → ℚ) :
    ∀ (n : ℕ) (dest : ℕ → ℚ) (i rp q : ℕ), rp < size → q < n →
      readChanLoop size src dest i rp n (i + q) = src ((rp + q) % size) := by
  intro n
  induction n with
  | zero => intro _ _ _ _ _ hq; omega
  | succ n ih =>
    intro dest i rp q hrp hq
    have hsize : 0 < size := lt_of_le_of_lt (Nat.zero_le _) hrp
    simp only [readChanLoop]
    cases q with
    | zero =>
      simp only [Nat.add_zero]
      rw [readChanLoop_untouched src n (Function.update dest i (src rp)) (i + 1)
          (ringStep size rp) i (by omega)]
      rw [Function.update_same, Nat.mod_eq_of_lt hrp]
    | succ q =>
      rw [ringStep_eq_mod rp hrp]
      have harg : i + (q + 1) = (i + 1) + q := by omega
      rw [harg, ih (Function.update dest i (src rp)) (i + 1) ((rp + 1) % size) q
        (Nat.mod_lt _ hsize) (by omega)]
      congr 1
      rw [Nat.mod_add_mod]
      congr 1
      omega

/-- C2: after any sequence of block writes, `copyTo` over the window of
length `W ≤ capacity` ending at "now" (`startSample = size − W`,
`endSample = size`) hands back, per channel and in chronological order,
exactly the most recently written `W` samples of that channel's stream. -/
theorem c2_copy_window_roundtrip
    (numCh size : ℕ) (d0 : ℕ → ℕ → ℚ) (bs : List Block)
    (W destCh destLen : ℕ) (dest : ℕ → ℕ → ℚ) (c i : ℕ)
    (hsize : 0 < size)
    (hch : ∀ b ∈ bs, numCh ≤ b.numChannels)
    (hW1 : W ≤ size) (hW2 : W ≤ totalWritten bs)
    (hdest : W ≤ destLen)
    (hc : c < min destCh numCh) (hi : i < W) :
    ((CircularAudioBuffer.mk numCh size d0 0).writeAll bs).copyTo destCh destLen dest
        (size - W) size c i
      = (streamOf bs c).getD (totalWritten bs - W + i) 0 := by
  set buf : CircularAudioBuffer := CircularAudioBuffer.mk numCh size d0 0 with hbuf
  have hinv0 : RingInv size (d0 c) 0 [] := by
    constructor
    · simp
    · intro k hk
      simp at hk
  obtain ⟨hsz, hnc, hinv⟩ :=
    writeAll_ringInv bs buf c [] hsize (by simp [hbuf]; omega) hch hinv0
  rw [List.nil_append] at hinv
  obtain ⟨hwp, hdata⟩ := hinv
  set T := totalWritten bs with hT
  have hTs : (streamOf bs c).length = T := streamOf_length bs c
  have hc2 : c < min destCh (buf.writeAll bs).numChannels := by
    rw [hnc]; exact hc
  simp only [CircularAudioBuffer.copyTo]
  rw [if_pos hc2]
  have hszeq : (buf.writeAll bs).size = size := hsz
  rw [hszeq]
  have hcount : min destLen (size - (size - W)) = W := by omega
  rw [hcount, copyToReadPos_eq]
  have hrp : ((buf.writeAll bs).writePos + (size - W)) % size < size := Nat.mod_lt _ hsize
  have hread := readChanLoop_get ((buf.writeAll bs).data c) W (dest c) 0
    (((buf.writeAll bs).writePos + (size - W)) % size) i hrp hi
  rw [Nat.zero_add] at hread
  rw [hread, hwp, hTs]
  have hidx : ((T % size + (size - W)) % size + i) % size = (T - W + i) % size := by
    rw [Nat.mod_add_mod, Nat.add_assoc, Nat.mod_add_mod]
    have harith : T + ((size - W) + i) = (T - W + i) + size := by omega
    rw [harith, Nat.add_mod_right]
  rw [hidx]
  have hk : T - W + i < (streamOf bs c).length := by rw [hTs]; omega
  rw [hdata (T - W + i) hk (by rw [hTs]; omega)]
  exact (List.getD_eq_get (streamOf bs c) 0 hk).symm

/-- Concrete write sequence for the C2 witness: two stereo-agnostic mono
blocks carrying the stream `1, 2, 3, 4`. -/
def c2Blocks : List Block :=
  [{ numChannels := 1, numSamples := 2, sample := fun _ i => ([1, 2] : List ℚ).getD i 0 },
   { numChannels := 1, numSamples := 2, sample := fun _ i => ([3, 4] : List ℚ).getD i 0 }]

/-- Witness for C2 on a capacity-3 ring: the window of length 2 ending at
"now" returns the stream's last two samples; here its second entry. -/
theorem c2_copy_window_roundtrip_witness :
    0 < 3 ∧ 2 ≤ totalWritten c2Blocks ∧
    ((CircularAudioBuffer.mk 1 3 (fun _ _ => 0) 0).writeAll c2Blocks).copyTo 1 2
        (fun _ _ => 0) (3 - 2) 3 0 1
      = (streamOf c2Blocks 0).getD (totalWritten c2Blocks - 2 + 1) 0 :=
  ⟨by norm_num, by decide,
   c2_copy_window_roundtrip 1 3 (fun _ _ => 0) c2Blocks 2 1 2 (fun _ _ => 0) 0 1
     (by norm_num) (by decide) (by norm_num) (by decide) (by norm_num) (by decide)
     (by norm_num)⟩

/-! ## C5: detectPitch chunking, histogram and argmax -/

lemma scanHistogram_eq_scanFold (h : ℤ → ℕ) (m : ℤ) :
    scanHistogram h m = scanFold h (List.range 128) (0, m) := rfl

lemma scanFold_cons (h : ℤ → ℕ) (a : ℕ) (l : List ℕ) (acc : ℕ × ℤ) :
    scanFold h (a :: l) acc
      = scanFold h l (if h (a : ℤ) > acc.1 then (h (a : ℤ), (a : ℤ)) else acc) := rfl

lemma addNote_apply (h : ℤ → ℕ) (note n : ℤ) :
    addNote h note n = h n + if 0 ≤ n ∧ n < 128 ∧ note = n then 1 else 0 := by
  unfold addNote
  by_cases hn : 0 ≤ note ∧ note < 128
  · rw [if_pos hn]
    by_cases hne : note = n
    · subst hne
      rw [Function.update_same, if_pos ⟨hn.1, hn.2, rfl⟩]
    · rw [Function.update_noteq (Ne.symm hne), if_neg (by tauto), Nat.add_zero]
  · rw [if_neg hn, if_neg (by rintro ⟨h1, h2, rfl⟩; exact hn ⟨h1, h2⟩), Nat.add_zero]

lemma accumulate_count (f : ℕ → ℤ) :
    ∀ (l : List ℕ) (h0 : ℤ → ℕ) (n : ℤ),
      (l.foldl (fun h c => addNote h (f c)) h0) n
        = h0 n + if 0 ≤ n ∧ n < 128 then (l.map f).count n else 0 := by
  intro l
  induction l with
  | nil => intro h0 n; simp
  | cons c l ih =>
    intro h0 n
    simp only [List.foldl_cons, List.map_cons]
    rw [ih (addNote h0 (f c)) n, addNote_apply]
    by_cases hn : 0 ≤ n ∧ n < 128
    · rw [if_pos hn, if_pos hn]
      by_cases he : f c = n
      · rw [if_pos ⟨hn.1, hn.2, he⟩]
        have hcnt : (f c :: l.map f).count n = (l.map f).count n + 1 := by
          simp [List.count_cons, he]
        omega
      · rw [if_neg (by tauto)]
        have hcnt : (f c :: l.map f).count n = (l.map f).count n := by
          simp [List.count_cons, he, Ne.symm he]
        omega
    · rw [if_neg hn, if_neg hn, if_neg (by tauto)]

lemma scanFold_le (h : ℤ → ℕ) :
    ∀ (l : List ℕ) (acc : ℕ × ℤ),
      acc.1 ≤ (scanFold h l acc).1 ∧ ∀ k ∈ l, h (k : ℤ) ≤ (scanFold h l acc).1 := by
  intro l
  induction l with
  | nil => intro acc; exact ⟨le_refl _, by simp⟩
  | cons a l ih =>
    intro acc
    rw [scanFold_cons]
    obtain ⟨ih1, ih2⟩ := ih (if h (a : ℤ) > acc.1 then (h (a : ℤ), (a : ℤ)) else acc)
    have hstep : acc.1 ≤ (if h (a : ℤ) > acc.1 then (h (a : ℤ), (a : ℤ)) else acc).1 := by
      split <;> simp_all <;> omega
    have hstepa : h (a : ℤ) ≤ (if h (a : ℤ) > acc.1 then (h (a : ℤ), (a : ℤ)) else acc).1 := by
      split <;> simp_all
    refine ⟨le_trans hstep ih1, ?_⟩
    intro k hk
    rcases List.mem_cons.mp hk with rfl | hk
    · exact le_trans hstepa ih1
    · exact ih2 k hk

lemma scanFold_spec (h : ℤ → ℕ) :
    ∀ (l : List ℕ), l.Pairwise (· < ·) → ∀ (acc : ℕ × ℤ),
      scanFold h l acc = acc ∨
      ∃ k ∈ l, (scanFold h l acc).2 = (k : ℤ) ∧ (scanFold h l acc).1 = h (k : ℤ) ∧
        acc.1 < h (k : ℤ) ∧ ∀ j ∈ l, j < k → h (j : ℤ) < h (k : ℤ) := by
  intro l
  induction l with
  | nil => intro _ acc; exact Or.inl rfl
  | cons a l ih =>
    intro hsort acc
    obtain ⟨hlt, hsort'⟩ := List.pairwise_cons.mp hsort
    rw [scanFold_cons]
    by_cases ha : h (a : ℤ) > acc.1
    · rw [if_pos ha]
      rcases ih hsort' (h (a : ℤ), (a : ℤ)) with heq | ⟨k, hk, h1, h2, h3, h4⟩
      · right
        refine ⟨a, by simp, by rw [heq], by rw [heq], ha, ?_⟩
        intro j hj hja
        rcases List.mem_cons.mp hj with rfl | hj
        · omega
        · exact absurd (hlt j hj) (by omega)
      · right
        refine ⟨k, by simp [hk], h1, h2, lt_trans ha h3, ?_⟩
        intro j hj hjk
        rcases List.mem_cons.mp hj with rfl | hj
        · exact h3
        · exact h4 j hj hjk
    · rw [if_neg ha]
      push_neg at ha
      rcases ih hsort' acc with heq | ⟨k, hk, h1, h2, h3, h4⟩
      · exact Or.inl heq
      · right
        refine ⟨k, by simp [hk], h1, h2, h3, ?_⟩
        intro j hj hjk
        rcases List.mem_cons.mp hj with rfl | hj
        · exact lt_of_le_of_lt ha h3
        · exact h4 j hj hjk

/-- C5: `detectPitch` (on a non-empty trimmed buffer) splits the selected
window into `⌊length/2048⌋` consecutive 2048-sample chunks of channel 0,
discarding the remainder: every histogram count grows by exactly the
number of chunks whose estimated note equals that key, and only for keys
in `[0, 128)`.  Afterwards — provided the histogram is non-empty —
`mostCommonNote` is a key of maximal count in `[0, 128)`, and every
strictly smaller key has a strictly smaller count (the first-encountered
maximum of the single ascending scan: lowest note wins a tie). -/
theorem c5_detect_pitch_chunks_histogram_argmax
    (est : (ℕ → ℚ) → ℤ) (st : TrimState)
    (hlen : ¬ st.trimmedLen = 0)
    (hsupp : ∀ k : ℤ, st.noteHistogram k ≠ 0 → 0 ≤ k ∧ k < 128)
    (hne : ∃ k : ℤ, (detectPitchDriver est st).noteHistogram k ≠ 0) :
    (∀ n : ℤ, (detectPitchDriver est st).noteHistogram n
        = st.noteHistogram n +
          if 0 ≤ n ∧ n < 128 then
            ((List.range st.numChunks).map (fun c => est (chunkFrame st c))).count n
          else 0) ∧
    (0 ≤ (detectPitchDriver est st).mostCommonNote ∧
      (detectPitchDriver est st).mostCommonNote < 128) ∧
    (∀ k : ℤ, (detectPitchDriver est st).noteHistogram k
        ≤ (detectPitchDriver est st).noteHistogram
            ((detectPitchDriver est st).mostCommonNote)) ∧
    (∀ k : ℤ, k < (detectPitchDriver est st).mostCommonNote →
      (detectPitchDriver est st).noteHistogram k
        < (detectPitchDriver est st).noteHistogram
            ((detectPitchDriver est st).mostCommonNote)) := by
  have hh : (detectPitchDriver est st).noteHistogram = accumulateChunks est st := by
    simp only [detectPitchDriver]
    rw [if_neg hlen]
  have hm : (detectPitchDriver est st).mostCommonNote
      = (scanHistogram (accumulateChunks est st) st.mostCommonNote).2 := by
    simp only [detectPitchDriver]
    rw [if_neg hlen]
  have hacc : ∀ n : ℤ, accumulateChunks est st n
      = st.noteHistogram n +
        if 0 ≤ n ∧ n < 128 then
          ((List.range st.numChunks).map (fun c => est (chunkFrame st c))).count n
        else 0 :=
    fun n => accumulate_count (fun c => est (chunkFrame st c))
      (List.range st.numChunks) st.noteHistogram n
  have hsupp' : ∀ k : ℤ, accumulateChunks est st k ≠ 0 → 0 ≤ k ∧ k < 128 := by
    intro k hk
    by_contra hout
    rw [hacc k, if_neg hout, Nat.add_zero] at hk
    exact hout (hsupp k hk)
  obtain ⟨k0, hk0⟩ := hne
  rw [hh] at hk0
  obtain ⟨hk0a, hk0b⟩ := hsupp' k0 hk0
  obtain ⟨k0n, rfl⟩ : ∃ m : ℕ, k0 = (m : ℤ) :=
    ⟨k0.toNat, (Int.toNat_of_nonneg hk0a).symm⟩
  have hk0mem : k0n ∈ List.range 128 := List.mem_range.mpr (by exact_mod_cast hk0b)
  have hle := scanFold_le (accumulateChunks est st) (List.range 128)
    (0, st.mostCommonNote)
  have hpos : 1 ≤ (scanFold (accumulateChunks est st) (List.range 128)
      (0, st.mostCommonNote)).1 :=
    le_trans (by omega) (hle.2 k0n hk0mem)
  rcases scanFold_spec (accumulateChunks est st) (List.range 128)
      (List.pairwise_lt_range 128) (0, st.mostCommonNote) with
    heq | ⟨kmax, hkmem, h1, h2, h3, h4⟩
  · rw [heq] at hpos
    exact absurd hpos (by norm_num)
  · have hkmax128 : kmax < 128 := List.mem_range.mp hkmem
    have hmax : (detectPitchDriver est st).mostCommonNote = (kmax : ℤ) := by
      rw [hm, scanHistogram_eq_scanFold, h1]
    refine ⟨fun n => by rw [hh]; exact hacc n, ?_, ?_, ?_⟩
    · rw [hmax]
      constructor
      · exact Int.natCast_nonneg kmax
      · exact_mod_cast hkmax128
    · intro k
      rw [hh, hmax]
      by_cases hz : accumulateChunks est st k = 0
      · rw [hz]; exact Nat.zero_le _
      · obtain ⟨hka, hkb⟩ := hsupp' k hz
        obtain ⟨kn, rfl⟩ : ∃ m : ℕ, k = (m : ℤ) :=
          ⟨k.toNat, (Int.toNat_of_nonneg hka).symm⟩
        have hkmem2 : kn ∈ List.range 128 := List.mem_range.mpr (by exact_mod_cast hkb)
        calc accumulateChunks est st (kn : ℤ)
            ≤ (scanFold (accumulateChunks est st) (List.range 128)
                (0, st.mostCommonNote)).1 := hle.2 kn hkmem2
          _ = accumulateChunks est st (kmax : ℤ) := h2
    · intro k hk
      rw [hh, hmax]
      rw [hmax] at hk
      have hmaxpos : 1 ≤ accumulateChunks est st (kmax : ℤ) := h2 ▸ hpos
      by_cases hz : accumulateChunks est st k = 0
      · omega
      · obtain ⟨hka, _⟩ := hsupp' k hz
        obtain ⟨kn, rfl⟩ : ∃ m : ℕ, k = (m : ℤ) :=
          ⟨k.toNat, (Int.toNat_of_nonneg hka).symm⟩
        have hknlt : kn < kmax := by exact_mod_cast hk
        exact h4 kn (List.mem_range.mpr (by omega)) hknlt

/-- Witness for C5: a fresh full-region 2048-sample trim state with a
constant note-64 estimator satisfies the hypotheses. -/
theorem c5_detect_pitch_witness :
    (¬ c5State.trimmedLen = 0) ∧
    (∀ k : ℤ, c5State.noteHistogram k ≠ 0 → 0 ≤ k ∧ k < 128) ∧
    (∃ k : ℤ, (detectPitchDriver c5Est c5State).noteHistogram k ≠ 0) ∧
    ((∀ n : ℤ, (detectPitchDriver c5Est c5State).noteHistogram n
        = c5State.noteHistogram n +
          if 0 ≤ n ∧ n < 128 then
            ((List.range c5State.numChunks).map
              (fun c => c5Est (chunkFrame c5State c))).count n
          else 0) ∧
    (0 ≤ (detectPitchDriver c5Est c5State).mostCommonNote ∧
      (detectPitchDriver c5Est c5State).mostCommonNote < 128) ∧
    (∀ k : ℤ, (detectPitchDriver c5Est c5State).noteHistogram k
        ≤ (detectPitchDriver c5Est c5State).noteHistogram
            ((detectPitchDriver c5Est c5State).mostCommonNote)) ∧
    (∀ k : ℤ, k < (detectPitchDriver c5Est c5State).mostCommonNote →
      (detectPitchDriver c5Est c5State).noteHistogram k
        < (detectPitchDriver c5Est c5State).noteHistogram
            ((detectPitchDriver c5Est c5State).mostCommonNote))) := by
  have h1 : ¬ c5State.trimmedLen = 0 := by decide
  have h2 : ∀ k : ℤ, c5State.noteHistogram k ≠ 0 → 0 ≤ k ∧ k < 128 := by
    intro k hk
    exact absurd rfl hk
  have hs : c5State.startSample = 0 := by
    norm_num [TrimState.startSample, c5State, juceRoundToInt]
  have he : c5State.endSample = 2048 := by
    norm_num [TrimState.endSample, c5State, juceRoundToInt]
  have hn : c5State.numChunks = 1 := by
    rw [TrimState.numChunks, TrimState.lengthInSamples, hs, he]
    decide
  have h3 : ∃ k : ℤ, (detectPitchDriver c5Est c5State).noteHistogram k ≠ 0 := by
    refine ⟨64, ?_⟩
    have hh : (detectPitchDriver c5Est c5State).noteHistogram
        = accumulateChunks c5Est c5State := by
      simp only [detectPitchDriver]
      rw [if_neg h1]
    rw [hh]
    simp only [accumulateChunks]
    rw [hn]
    decide
  exact ⟨h1, h2, h3, c5_detect_pitch_chunks_histogram_argmax c5Est c5State h1 h2 h3⟩

/-! ## C10: getMostCommonNote stays in [0, 128) -/

lemma scanFold_zero (h : ℤ → ℕ) :
    ∀ (l : List ℕ) (acc : ℕ × ℤ), (∀ k ∈ l, h (k : ℤ) = 0) →
      scanFold h l acc = acc := by
  intro l
  induction l with
  | nil => intro acc _; rfl
  | cons a l ih =>
    intro acc hz
    rw [scanFold_cons, if_neg (by rw [hz a (by simp)]; omega)]
    exact ih acc (fun k hk => hz k (by simp [hk]))

/-- C10: `mostCommonNote` starts at 60 ∈ [0,128), any `detectPitch` pass
keeps it in [0,128) (it is only ever overwritten with a histogram key,
which the guarded insertion restricts to [0,128)), and a pass whose final
histogram is empty leaves the previous value untouched — the getter never
yields the −1 "no note" sentinel. -/
theorem c10_most_common_note_in_range (est : (ℕ → ℚ) → ℤ) (st : TrimState)
    (hrange : 0 ≤ st.mostCommonNote ∧ st.mostCommonNote < 128) :
    (0 ≤ initialMostCommonNote ∧ initialMostCommonNote < 128) ∧
    (0 ≤ (detectPitchDriver est st).mostCommonNote ∧
      (detectPitchDriver est st).mostCommonNote < 128) ∧
    ((∀ k : ℤ, (detectPitchDriver est st).noteHistogram k = 0) →
      (detectPitchDriver est st).mostCommonNote = st.mostCommonNote) := by
  refine ⟨by norm_num [initialMostCommonNote], ?_, ?_⟩
  · by_cases hlen : st.trimmedLen = 0
    · simp only [detectPitchDriver]
      rw [if_pos hlen]
      exact hrange
    · have hm : (detectPitchDriver est st).mostCommonNote
          = (scanFold (accumulateChunks est st) (List.range 128)
              (0, st.mostCommonNote)).2 := by
        simp only [detectPitchDriver]
        rw [if_neg hlen]
        rfl
      rcases scanFold_spec (accumulateChunks est st) (List.range 128)
          (List.pairwise_lt_range 128) (0, st.mostCommonNote) with
        heq | ⟨k, hk, h1, _, _, _⟩
      · rw [hm, heq]
        exact hrange
      · rw [hm, h1]
        have hk128 := List.mem_range.mp hk
        exact ⟨Int.natCast_nonneg k, by exact_mod_cast hk128⟩
  · intro hz
    by_cases hlen : st.trimmedLen = 0
    · simp only [detectPitchDriver]
      rw [if_pos hlen]
    · have hh : (detectPitchDriver est st).noteHistogram
          = accumulateChunks est st := by
        simp only [detectPitchDriver]
        rw [if_neg hlen]
      rw [hh] at hz
      have hm : (detectPitchDriver est st).mostCommonNote
          = (scanFold (accumulateChunks est st) (List.range 128)
              (0, st.mostCommonNote)).2 := by
        simp only [detectPitchDriver]
        rw [if_neg hlen]
        rfl
      rw [hm, scanFold_zero (accumulateChunks est st) (List.range 128)
        (0, st.mostCommonNote) (fun k _ => hz (k : ℤ))]

/-- Witness for C10 at a concrete in-range state. -/
theorem c10_most_common_note_witness :
    (0 ≤ c5State.mostCommonNote ∧ c5State.mostCommonNote < 128) ∧
    ((0 ≤ initialMostCommonNote ∧ initialMostCommonNote < 128) ∧
    (0 ≤ (detectPitchDriver c5Est c5State).mostCommonNote ∧
      (detectPitchDriver c5Est c5State).mostCommonNote < 128) ∧
    ((∀ k : ℤ, (detectPitchDriver c5Est c5State).noteHistogram k = 0) →
      (detectPitchDriver c5Est c5State).mostCommonNote
        = c5State.mostCommonNote)) :=
  ⟨by decide, c10_most_common_note_in_range c5Est c5State (by decide)⟩

/-! ## C9: tail-off release timing -/

/-- `0.99^n` never lands exactly on `0.005`, so "drops below" and "drops
to or below" pick out the same first sample. -/
lemma pow_point99_ne (n : ℕ) : (0.99 : ℝ) ^ n ≠ 0.005 := by
  intro h
  have h1 : ((99 : ℝ) / 100) ^ n = 1 / 200 := by
    rw [show ((99 : ℝ) / 100) = 0.99 by norm_num, h]
    norm_num
  have hp : (0 : ℝ) < (100 : ℝ) ^ n := by positivity
  rw [div_pow, div_eq_div_iff (by positivity) (by norm_num)] at h1
  have h2 : (99 ^ n * 200 : ℕ) = 1 * 100 ^ n := by exact_mod_cast h1
  rcases Nat.lt_or_ge n 2 with hn | hn
  · interval_cases n <;> norm_num at h2
  · have hdvd : (16 : ℕ) ∣ 100 ^ n := by
      have h16 : (16 : ℕ) ∣ 100 ^ 2 := by norm_num
      exact dvd_trans h16 (pow_dvd_pow 100 hn)
    have hodd : Odd (99 ^ n) := Odd.pow (Nat.odd_iff.mpr (by norm_num))
    obtain ⟨m, hm⟩ := hodd
    omega

lemma truncAdd_one (p : ℤ) : truncAdd p 1 = p + 1 := by
  unfold truncAdd
  have hcast : (p : ℝ) + 1 = ((p + 1 : ℤ) : ℝ) := by push_cast; ring
  rw [hcast]
  split <;> simp

/-- The render-loop iteration when the voice keeps sounding: position below
the buffer end and tail-off still above the floor after this sample's
decay. -/
lemma renderOne_emit (sb : SampleBuf) (v : Voice)
    (hlt : v.sourceSamplePosition < (sb.len : ℤ))
    (hto : 0 < v.tailOff)
    (hbig : ¬ v.tailOff * 0.99 ≤ 0.005) :
    ∃ out : ℝ × ℝ, v.renderOne sb
      = ({ v with tailOff := v.tailOff * 0.99
                  sourceSamplePosition := truncAdd v.sourceSamplePosition v.rate },
         some out) := by
  have hcomp : (v.renderOne sb).1
        = { v with tailOff := v.tailOff * 0.99
                   sourceSamplePosition := truncAdd v.sourceSamplePosition v.rate } ∧
      ∃ out, (v.renderOne sb).2 = some out := by
    simp only [Voice.renderOne]
    rw [if_neg (by omega : ¬ v.sourceSamplePosition ≥ (sb.len : ℤ)), if_pos hto,
      if_neg hbig]
    exact ⟨rfl, _, rfl⟩
  obtain ⟨hfst, out, hsnd⟩ := hcomp
  refine ⟨out, ?_⟩
  rw [← hfst, ← hsnd]

/-- The render-loop iteration that frees the voice because the decayed
tail-off falls to or below `0.005`: the output write is skipped. -/
lemma renderOne_free (sb : SampleBuf) (v : Voice)
    (hlt : v.sourceSamplePosition < (sb.len : ℤ))
    (hto : 0 < v.tailOff)
    (hsmall : v.tailOff * 0.99 ≤ 0.005) :
    v.renderOne sb
      = ({ v with tailOff := v.tailOff * 0.99
                  active := false }, none) := by
  simp only [Voice.renderOne]
  rw [if_neg (by omega : ¬ v.sourceSamplePosition ≥ (sb.len : ℤ)), if_pos hto,
    if_pos hsmall]

lemma renderLoop_stays_active (sb : SampleBuf) :
    ∀ (n k : ℕ) (v : Voice),
      v.active = true →
      v.tailOff = (0.99 : ℝ) ^ k →
      v.rate = 1 →
      v.sourceSamplePosition + n ≤ (sb.len : ℤ) →
      (0.005 : ℝ) < 0.99 ^ (k + n) →
      (v.renderLoop sb n).1.active = true ∧
      (v.renderLoop sb n).1.tailOff = 0.99 ^ (k + n) ∧
      (v.renderLoop sb n).1.sourceSamplePosition = v.sourceSamplePosition + n := by
  intro n
  induction n with
  | zero =>
    intro k v h1 h2 _ _ _
    exact ⟨h1, by simpa [Voice.renderLoop] using h2, by simp [Voice.renderLoop]⟩
  | succ n ih =>
    intro k v h1 h2 h3 h4 h5
    have hto : 0 < v.tailOff := by rw [h2]; positivity
    have hlt : v.sourceSamplePosition < (sb.len : ℤ) := by omega
    have hmono : (0.99 : ℝ) ^ (k + (n + 1)) ≤ 0.99 ^ (k + 1) :=
      pow_le_pow_of_le_one (by norm_num) (by norm_num) (by omega)
    have hbig : ¬ v.tailOff * 0.99 ≤ 0.005 := by
      rw [h2, ← pow_succ]
      push_neg
      exact lt_of_lt_of_le h5 hmono
    obtain ⟨out, hstep⟩ := renderOne_emit sb v hlt hto hbig
    simp only [Voice.renderLoop, hstep]
    have htail : ({ v with tailOff := v.tailOff * 0.99
                           sourceSamplePosition :=
                             truncAdd v.sourceSamplePosition v.rate } :
          Voice).tailOff = (0.99 : ℝ) ^ (k + 1) := by
      simp [h2, pow_succ]
    have hposeq : ({ v with tailOff := v.tailOff * 0.99
                            sourceSamplePosition :=
                              truncAdd v.sourceSamplePosition v.rate } :
          Voice).sourceSamplePosition = v.sourceSamplePosition + 1 := by
      simp [h3, truncAdd_one]
    have harith : k + 1 + n = k + (n + 1) := by omega
    obtain ⟨ih1, ih2, ih3⟩ := ih (k + 1)
      { v with tailOff := v.tailOff * 0.99
               sourceSamplePosition := truncAdd v.sourceSamplePosition v.rate }
      h1 htail h3 (by rw [hposeq]; omega) (by rw [harith]; exact h5)
    refine ⟨ih1, ?_, ?_⟩
    · rw [ih2, harith]
    · rw [ih3, hposeq]
      omega

lemma renderLoop_freed (sb : SampleBuf) :
    ∀ (n k : ℕ) (v : Voice),
      v.tailOff = (0.99 : ℝ) ^ k →
      (0.005 : ℝ) < 0.99 ^ k →
      (0.99 : ℝ) ^ (k + n) < 0.005 →
      (v.renderLoop sb n).1.active = false := by
  intro n
  induction n with
  | zero =>
    intro k v _ h2 h3
    rw [Nat.add_zero] at h3
    linarith
  | succ n ih =>
    intro k v h1 h2 h3
    by_cases hlen : v.sourceSamplePosition ≥ (sb.len : ℤ)
    · have hstep : v.renderOne sb = ({ v with active := false }, none) := by
        simp only [Voice.renderOne]
        rw [if_pos hlen]
      simp [Voice.renderLoop, hstep]
    · push_neg at hlen
      have hto : 0 < v.tailOff := by rw [h1]; positivity
      by_cases hsmall : v.tailOff * 0.99 ≤ 0.005
      · have hstep := renderOne_free sb v hlen hto hsmall
        simp [Voice.renderLoop, hstep]
      · obtain ⟨out, hstep⟩ := renderOne_emit sb v hlen hto hsmall
        simp only [Voice.renderLoop, hstep]
        push_neg at hsmall
        have htail : ({ v with tailOff := v.tailOff * 0.99
                               sourceSamplePosition :=
                                 truncAdd v.sourceSamplePosition v.rate } :
              Voice).tailOff = (0.99 : ℝ) ^ (k + 1) := by
          simp [h1, pow_succ]
        have harith : k + 1 + n = k + (n + 1) := by omega
        exact ih (k + 1)
          { v with tailOff := v.tailOff * 0.99
                   sourceSamplePosition := truncAdd v.sourceSamplePosition v.rate }
          htail (by rw [h1, ← pow_succ] at hsmall; exact hsmall)
          (by rw [harith]; exact h3)

/-- C9: after `stopNote(allowTailOff=true)` on a voice not already
releasing, the tail-off starts at `1.0`, is multiplied by `0.99` once per
rendered sample, and the voice remains active after `n` samples precisely
until the cumulative coefficient first drops below `0.005` (the code's
`<= 0.005` test and the claim's "drops below" agree because `0.99^n` never
equals `0.005`); `stopNote(allowTailOff=false)` frees the voice
immediately with no fade ramp (level zeroed, nothing rendered). -/
theorem c9_tailoff_release (sb : SampleBuf) (v : Voice) (n : ℕ)
    (hactive : v.active = true)
    (hto : v.tailOff = 0)
    (hrate : v.rate = 1)
    (hpos : v.sourceSamplePosition = 0)
    (hlen0 : ¬ sb.len = 0)
    (hlen : n ≤ sb.len) :
    (v.stopNote true).tailOff = 1 ∧
    (v.stopNote true).active = true ∧
    (((v.stopNote true).renderNextBlock sb n).1.active = true
      ↔ ¬ ((0.99 : ℝ) ^ n < 0.005)) ∧
    ((0.005 : ℝ) < 0.99 ^ n →
      ((v.stopNote true).renderNextBlock sb n).1.tailOff = 0.99 ^ n) ∧
    (v.stopNote false).active = false ∧
    (v.stopNote false).level = 0 := by
  have hstop : v.stopNote true = { v with tailOff := 1 } := by
    simp [Voice.stopNote, hto]
  have hrnb : ∀ w : Voice, w.renderNextBlock sb n = w.renderLoop sb n := by
    intro w
    simp only [Voice.renderNextBlock]
    rw [if_neg hlen0]
  have hlit : ({ v with tailOff := 1 } : Voice).tailOff = (0.99 : ℝ) ^ 0 := by
    simp
  have hposc : ({ v with tailOff := 1 } : Voice).sourceSamplePosition + (n : ℤ)
      ≤ (sb.len : ℤ) := by
    show v.sourceSamplePosition + (n : ℤ) ≤ (sb.len : ℤ)
    rw [hpos]
    omega
  refine ⟨by rw [hstop], by rw [hstop]; exact hactive, ?_, ?_,
    by simp [Voice.stopNote], by simp [Voice.stopNote]⟩
  · rw [hrnb, hstop]
    constructor
    · intro ha hlt
      have hfree := renderLoop_freed sb n 0 { v with tailOff := 1 } hlit
        (by norm_num) (by simpa using hlt)
      rw [hfree] at ha
      simp at ha
    · intro hnlt
      have hgt : (0.005 : ℝ) < 0.99 ^ n :=
        lt_of_le_of_ne (not_lt.mp hnlt) (Ne.symm (pow_point99_ne n))
      exact (renderLoop_stays_active sb n 0 { v with tailOff := 1 } hactive hlit
        hrate hposc (by simpa using hgt)).1
  · intro hgt
    rw [hrnb, hstop]
    have hst := renderLoop_stays_active sb n 0 { v with tailOff := 1 } hactive hlit
      hrate hposc (by simpa using hgt)
    rw [hst.2.1]
    simp

/-- Witness for C9: rate-1 voice over a 4-sample silent asset, two render
samples. -/
theorem c9_tailoff_release_witness :
    c9Voice.active = true ∧ c9Voice.tailOff = 0 ∧ c9Voice.rate = 1 ∧
    c9Voice.sourceSamplePosition = 0 ∧ (¬ c9Buf.len = 0) ∧ 2 ≤ c9Buf.len ∧
    ((c9Voice.stopNote true).tailOff = 1 ∧
    (c9Voice.stopNote true).active = true ∧
    (((c9Voice.stopNote true).renderNextBlock c9Buf 2).1.active = true
      ↔ ¬ ((0.99 : ℝ) ^ 2 < 0.005)) ∧
    ((0.005 : ℝ) < 0.99 ^ 2 →
      ((c9Voice.stopNote true).renderNextBlock c9Buf 2).1.tailOff = 0.99 ^ 2) ∧
    (c9Voice.stopNote false).active = false ∧
    (c9Voice.stopNote false).level = 0) :=
  ⟨rfl, rfl, rfl, rfl, by norm_num [c9Buf], by norm_num [c9Buf],
   c9_tailoff_release c9Buf c9Voice 2 rfl rfl rfl rfl (by norm_num [c9Buf])
     (by norm_num [c9Buf])⟩
